import Mathlib

/-!
Verification of the numpy matrix operators in
`src/operator/numpy/np_matrix_op-inl.h` (transpose, vstack, roll).

Tensors are modelled as a shape (`List Nat`, row-major / C-contiguous) together
with a flat data buffer (`List Int`).  Machine integers of the source are
modelled as `Int`, with C++ `%` (truncation toward zero) rendered as
`Int.tmod`.  A fatal check (`CHECK_*` / `LOG(FATAL)`) is modelled by the
function returning `none`.
-/

/-- Write policy enumeration (`OpReqType` in the source). -/
inductive OpReqType where
  | kNullOp
  | kWriteTo
  | kWriteInplace
  | kAddTo
deriving DecidableEq

/-- `KERNEL_ASSIGN(out, req, val)`: combine the old destination value with the
computed value according to the write policy. -/
def kernelAssign (req : OpReqType) (old val : Int) : Int :=
  match req with
  | .kNullOp => old
  | .kWriteTo => val
  | .kWriteInplace => val
  | .kAddTo => old + val

/-- Row-major linear offset of a multi-index `j` in a tensor of shape `shape`.
The stride of an axis is the product of the sizes of all later axes. -/
def linearize : List Nat → List Nat → Nat
  | _ :: ds, j :: js => j * ds.prod + linearize ds js
  | _, _ => 0

/-- All multi-indices of a shape, enumerated in row-major (destination-linear)
order: the outermost axis varies slowest. -/
def allIndices : List Nat → List (List Nat)
  | [] => [[]]
  | d :: ds => (List.range d).flatMap (fun j => (allIndices ds).map (fun js => j :: js))

/-- `validIdx shape j` holds when `j` is a multi-index of `shape`: same length
and pointwise below the dimension sizes. -/
def validIdx : List Nat → List Nat → Bool
  | [], [] => true
  | d :: ds, j :: js => decide (j < d) && validIdx ds js
  | _, _ => false

theorem allIndices_length (shape : List Nat) : (allIndices shape).length = shape.prod := by
  induction shape with
  | nil => rfl
  | cons d ds ih =>
    simp only [allIndices, List.length_flatMap]
    have hmap : ∀ j : Nat, ((List.length ∘ fun j => (allIndices ds).map (fun js => j :: js))) j
        = ds.prod := by
      intro j; simp [Function.comp, ih]
    calc (List.map (List.length ∘ fun j => (allIndices ds).map (fun js => j :: js))
            (List.range d)).sum
        = (List.map (fun _ : Nat => ds.prod) (List.range d)).sum := by
          exact congrArg List.sum (List.map_congr_left (fun j _ => hmap j))
      _ = d * ds.prod := by
          simp [List.map_const', List.sum_replicate, smul_eq_mul]
      _ = (d :: ds).prod := by simp

theorem linearize_lt (shape j : List Nat) (h : validIdx shape j = true) :
    linearize shape j < shape.prod := by
  induction shape generalizing j with
  | nil =>
    cases j with
    | nil => simp [linearize]
    | cons a js => simp [validIdx] at h
  | cons d ds ih =>
    cases j with
    | nil => simp [validIdx] at h
    | cons a js =>
      simp only [validIdx, Bool.and_eq_true, decide_eq_true_eq] at h
      have h1 := ih js h.2
      have : a * ds.prod + linearize ds js < (a + 1) * ds.prod := by
        simp [Nat.add_mul]; omega
      calc linearize (d :: ds) (a :: js) = a * ds.prod + linearize ds js := rfl
        _ < (a + 1) * ds.prod := this
        _ ≤ d * ds.prod := Nat.mul_le_mul_right _ h.1
        _ = (d :: ds).prod := by simp

theorem map_range_getD {α : Type} (l : List α) (dflt : α) :
    (List.range l.length).map (fun i => l.getD i dflt) = l := by
  induction l with
  | nil => rfl
  | cons a l ih =>
    have : (a :: l).length = l.length + 1 := rfl
    rw [this, List.range_succ_eq_map, List.map_cons, List.map_map]
    have hc : List.map ((fun i => (a :: l).getD i dflt) ∘ Nat.succ) (List.range l.length)
        = List.map (fun i => l.getD i dflt) (List.range l.length) := by
      apply List.map_congr_left
      intro i _
      simp [Function.comp, List.getD_cons_succ]
    rw [hc, ih]
    rfl

theorem getD_flatMap_uniform {α β : Type} (L : List α) (f : α → List β) (P : Nat)
    (hP : ∀ x ∈ L, (f x).length = P) (a r : Nat) (dfltA : α) (dflt : β)
    (ha : a < L.length) (hr : r < P) :
    (L.flatMap f).getD (a * P + r) dflt = (f (L.getD a dfltA)).getD r dflt := by
  induction L generalizing a with
  | nil => simp at ha
  | cons x L ih =>
    rw [List.flatMap_cons]
    cases a with
    | zero =>
      have hx : (f x).length = P := hP x (by simp)
      rw [List.getD_append]
      · simp
      · simpa [hx] using hr
    | succ a =>
      have hx : (f x).length = P := hP x (by simp)
      have hle : (f x).length ≤ (a + 1) * P + r := by
        rw [hx]; calc P ≤ (a + 1) * P := Nat.le_mul_of_pos_left _ (Nat.succ_pos a)
          _ ≤ (a + 1) * P + r := Nat.le_add_right _ _
      rw [List.getD_append_right _ _ _ _ hle, hx]
      have harith : (a + 1) * P + r - P = a * P + r := by
        simp [Nat.add_mul]; omega
      rw [harith, ih (fun y hy => hP y (by simp [hy])) a (by simpa using ha)]
      simp

theorem allIndices_getD (shape j : List Nat) (h : validIdx shape j = true) :
    (allIndices shape).getD (linearize shape j) [] = j := by
  induction shape generalizing j with
  | nil =>
    cases j with
    | nil => rfl
    | cons a js => simp [validIdx] at h
  | cons d ds ih =>
    cases j with
    | nil => simp [validIdx] at h
    | cons a js =>
      simp only [validIdx, Bool.and_eq_true, decide_eq_true_eq] at h
      have hr : linearize ds js < ds.prod := linearize_lt ds js h.2
      have step := getD_flatMap_uniform (List.range d)
        (fun x => (allIndices ds).map (fun js => x :: js)) ds.prod
        (fun x _ => by simp [allIndices_length]) a (linearize ds js) 0 []
        (by simpa using h.1) hr
      have hlin : linearize (d :: ds) (a :: js) = a * ds.prod + linearize ds js := rfl
      rw [allIndices, hlin, step]
      have hra : (List.range d).getD a 0 = a := by
        rw [List.getD_eq_getElem _ _ (by simpa using h.1), List.getElem_range]
      rw [hra]
      have hmlt : linearize ds js < ((allIndices ds).map (fun js => a :: js)).length := by
        simpa [allIndices_length] using hr
      rw [List.getD_eq_getElem _ _ hmlt, List.getElem_map]
      have hlt2 : linearize ds js < (allIndices ds).length := by simpa [allIndices_length] using hr
      rw [← List.getD_eq_getElem (allIndices ds) [] hlt2, ih js h.2]

theorem mem_allIndices (shape j : List Nat) :
    j ∈ allIndices shape ↔ validIdx shape j = true := by
  induction shape generalizing j with
  | nil =>
    cases j with
    | nil => simp [allIndices, validIdx]
    | cons a js => simp [allIndices, validIdx]
  | cons d ds ih =>
    cases j with
    | nil => simp [allIndices, validIdx, List.mem_flatMap, List.mem_map]
    | cons a js =>
      simp [allIndices, List.mem_flatMap, List.mem_map, List.mem_range, validIdx, ih]

theorem range_flatMap_mul (d P : Nat) :
    (List.range d).flatMap (fun j => (List.range P).map (fun r => j * P + r)) =
      List.range (d * P) := by
  induction d with
  | zero => simp
  | succ d ih =>
    rw [List.range_succ, List.flatMap_append, ih]
    have : (d + 1) * P = d * P + P := by ring
    rw [this, List.range_add]
    simp

theorem allIndices_map_linearize (shape : List Nat) :
    (allIndices shape).map (linearize shape) = List.range shape.prod := by
  induction shape with
  | nil => rfl
  | cons d ds ih =>
    rw [allIndices, List.map_flatMap]
    have hinner : ∀ j : Nat,
        ((allIndices ds).map (fun js => j :: js)).map (linearize (d :: ds)) =
          (List.range ds.prod).map (fun r => j * ds.prod + r) := by
      intro j
      rw [List.map_map, ← ih, List.map_map]
      rfl
    calc (List.range d).flatMap
          (fun j => ((allIndices ds).map (fun js => j :: js)).map (linearize (d :: ds)))
        = (List.range d).flatMap (fun j => (List.range ds.prod).map (fun r => j * ds.prod + r)) := by
          exact List.flatMap_congr (fun j _ => hinner j)
      _ = List.range (d * ds.prod) := range_flatMap_mul d ds.prod
      _ = List.range (d :: ds).prod := by simp

theorem allIndices_recover {α : Type} (shape : List Nat) (l : List α) (dflt : α)
    (h : l.length = shape.prod) :
    (allIndices shape).map (fun j => l.getD (linearize shape j) dflt) = l := by
  have : (allIndices shape).map (fun j => l.getD (linearize shape j) dflt) =
      ((allIndices shape).map (linearize shape)).map (fun i => l.getD i dflt) := by
    rw [List.map_map]; rfl
  rw [this, allIndices_map_linearize, ← h, map_range_getD]

/-- Roll operator configuration (`NumpyRollParam`): optional shift tuple and
optional axis tuple. -/
structure NumpyRollParam where
  shift : Option (List Int)
  axis : Option (List Int)

/-- Per-element kernel of flatten-mode roll (`RollAxisNone_forward::Map`):
`new_index = i - shift < 0 ? i - shift + size : i - shift`, then
`KERNEL_ASSIGN(out[i], req, in[new_index])`. -/
def RollAxisNone_forward (req : OpReqType) (i : Nat) (out_i : Int) (in_data : List Int)
    (size shift : Int) : Int :=
  let new_index : Int := if (i : Int) - shift < 0 then (i : Int) - shift + size else (i : Int) - shift
  kernelAssign req out_i (in_data.getD new_index.toNat 0)

/-- Kernel launch of `RollAxisNone_forward` over every output element. -/
def rollFlatLaunch (req : OpReqType) (out_old in_data : List Int) (shift : Int) : List Int :=
  (List.range out_old.length).map
    (fun i => RollAxisNone_forward req i (out_old.getD i 0) in_data (in_data.length : Int) shift)

/-- Per-element kernel of per-axis roll (`RollAxis_forward::Map`): gather
through the precomputed permutation table `new_index`. -/
def RollAxis_forward (req : OpReqType) (i : Nat) (out_i : Int) (in_data : List Int)
    (new_index : List Nat) : Int :=
  kernelAssign req out_i (in_data.getD (new_index.getD i 0) 0)

/-- Kernel launch of `RollAxis_forward` over every output element. -/
def rollTableLaunch (req : OpReqType) (out_old in_data : List Int) (new_index : List Nat) :
    List Int :=
  (List.range out_old.length).map
    (fun i => RollAxis_forward req i (out_old.getD i 0) in_data new_index)

/-- Fuel-indexed version of `RollDfs`; the fuel is `ndim - index`, which is
positive on every call the source makes. -/
def RollDfsAux (new_axes : List (List Nat)) (value : List Nat) :
    Nat → Nat → Nat → Nat → List Nat
  | 0, _, _, _ => []
  | fuel + 1, index, ndim, mid =>
    if index + 1 < ndim then
      (new_axes.getD index []).flatMap
        (fun a => RollDfsAux new_axes value fuel (index + 1) ndim
          (mid + a * value.getD (ndim - 1 - index) 0))
    else
      (new_axes.getD index []).map (fun a => mid + a)

/-- Depth-first combination across axes (`RollDfs` in the source): for every
entry `a` of `new_axes[index]`, either emit `mid + a` at the innermost axis or
recurse with `mid + a * value[ndim - 1 - index]`.  The source tests
`index == ndim - 1` inside the loop; on its call domain `index < ndim` that is
the complement of `index + 1 < ndim`. -/
def RollDfs (new_axes : List (List Nat)) (value : List Nat) (index ndim mid : Nat) : List Nat :=
  RollDfsAux new_axes value (ndim - index) index ndim mid

/-- One axis's mapping list (the loop body at lines 266-278): entry `j` is
`(j + dim - shift) % dim` when the shift is non-zero, and `j` otherwise. -/
def buildAxisList (d : Nat) (s : Int) : List Nat :=
  if s ≠ 0 then
    (List.range d).map (fun j : Nat => (Int.tmod ((j : Int) + (d : Int) - s) (d : Int)).toNat)
  else
    List.range d

/-- The `new_axes` table: one mapping list per axis. -/
def buildNewAxes (shape : List Nat) (shifts : List Int) : List (List Nat) :=
  List.zipWith (fun d s => buildAxisList d s) shape shifts

/-- The `value` stride table: `value[i]` is the product of the last `i`
dimension sizes (`mid_val` accumulation at lines 279-280). -/
def buildValue (shape : List Nat) : List Nat :=
  (List.range shape.length).map (fun i => (shape.reverse.take i).prod)

/-- The permutation table `new_index` produced before the gather kernel:
`RollDfs(new_axes, value, &new_index, 0, ndim, 0)`. -/
def rollNewIndex (shape : List Nat) (shifts : List Int) : List Nat :=
  RollDfs (buildNewAxes shape shifts) (buildValue shape) 0 shape.length 0

/-- Keep-in-legal-range normalization of one per-axis shift (lines 253-258):
`trans_shift = shifts[i] % d; if (trans_shift < 0) trans_shift = shifts[i] + d`.
Note the negative branch re-derives from the original shift. -/
def normShift (s : Int) (d : Nat) : Int :=
  let t := Int.tmod s (d : Int)
  if t < 0 then s + (d : Int) else t

/-- The normalization loop applied to the whole shift vector. -/
def normalizeShifts (shape : List Nat) (shifts : List Int) : List Int :=
  List.zipWith (fun s d => normShift s d) shifts shape

/-- The assignment loop `shifts[axes[i]] = ...` over a list of
(axis, shift) pairs, starting from the all-zero vector `init`.  A negative
axis index would be undefined behaviour in the source (negative `std::vector`
subscript); it is clamped to 0 here and excluded by hypotheses. -/
def assignShiftPairs (pairs : List (Nat × Int)) (init : List Int) : List Int :=
  pairs.foldl (fun acc p => acc.set p.1 p.2) init

/-- Axis normalization (lines 227-231): add `ndim` to negative entries. -/
def normalizeAxes (axs : List Int) (ndim : Nat) : List Int :=
  axs.map (fun a => if a < 0 then a + (ndim : Int) else a)

/-- The validation loop (lines 232-239).  Each iteration checks
`CHECK_LT(axes[i], ndim)` and `CHECK_GE(axes[0], 0)` — the second check reads
index 0, not `i`. -/
def rollAxisChecksPass (axes : List Int) (ndim : Nat) : Bool :=
  axes.all (fun a => decide (a < (ndim : Int)) && decide (0 ≤ axes.headD 0))

/-- Pairing of shifts with axes (lines 240-251): a length-1 shift tuple is
broadcast to every named axis; otherwise the lengths must match
(`LOG(FATAL)` when they differ, modelled as `none`) and pairing is
positional. -/
def rollShiftPairs (axes sh : List Int) : Option (List (Nat × Int)) :=
  if sh.length = 1 then
    some (axes.map (fun a => (a.toNat, sh.getD 0 0)))
  else if sh.length ≠ axes.length then
    none
  else
    some ((axes.zip sh).map (fun p => (p.1.toNat, p.2)))

/-- Flatten-mode effective shift (lines 213-217):
`shift = shift % input_size; if (shift < 0) shift += input_size` — note this
branch, unlike `normShift`, adds to the already-reduced value. -/
def rollFlatEffShift (s : Int) (n : Nat) : Int :=
  let t := Int.tmod s (n : Int)
  if t < 0 then t + (n : Int) else t

/-- The roll entry point `NumpyRollCompute`, for a single input buffer
`(shape, in_data)`, a single pre-existing output buffer `out_old` and a single
write policy.  `none` models a fatal check. -/
def NumpyRollCompute (param : NumpyRollParam) (req : OpReqType) (shape : List Nat)
    (in_data out_old : List Int) : Option (List Int) :=
  if shape.prod = 0 then some out_old
  else
    match param.shift with
    | none => none
    | some sh =>
      match param.axis with
      | none => some (rollFlatLaunch req out_old in_data (rollFlatEffShift (sh.getD 0 0) shape.prod))
      | some axs =>
        let ndim := shape.length
        let axes := normalizeAxes axs ndim
        if rollAxisChecksPass axes ndim then
          match rollShiftPairs axes sh with
          | none => none
          | some pairs =>
            let shifts := normalizeShifts shape
              (assignShiftPairs pairs (List.replicate ndim 0))
            some (rollTableLaunch req out_old in_data (rollNewIndex shape shifts))
        else none

/-- Pointwise source multi-index as the code computes it: axis `k` of the
source index is `(j_k + d_k - s_k)` under C++ `%` (truncation) by `d_k`. -/
def srcIdxC : List Nat → List Int → List Nat → List Nat
  | d :: ds, s :: ss, j :: js =>
    (Int.tmod ((j : Int) + (d : Int) - s) (d : Int)).toNat :: srcIdxC ds ss js
  | _, _, _ => []

theorem buildAxisList_eq_map (d : Nat) (s : Int) :
    buildAxisList d s =
      (List.range d).map
        (fun j : Nat => (Int.tmod ((j : Int) + (d : Int) - s) (d : Int)).toNat) := by
  by_cases hs : s = 0
  · subst hs
    rw [buildAxisList, if_neg (by simp)]
    have : ∀ j ∈ List.range d,
        j = (Int.tmod ((j : Int) + (d : Int) - 0) (d : Int)).toNat := by
      intro j hj
      have hjd : j < d := List.mem_range.mp hj
      have hnn : (0 : Int) ≤ (j : Int) + (d : Int) := by positivity
      rw [sub_zero, Int.tmod_eq_emod hnn (by positivity)]
      have : ((j : Int) + (d : Int)) % (d : Int) = (j : Int) % (d : Int) := by
        have h2 := Int.add_mul_emod_self_left (j : Int) (d : Int) 1
        rw [mul_one] at h2
        exact h2
      rw [this, Int.emod_eq_of_lt (by positivity) (by exact_mod_cast hjd)]
      simp
    calc List.range d = (List.range d).map (fun j => j) := by simp
      _ = (List.range d).map
            (fun j : Nat => (Int.tmod ((j : Int) + (d : Int) - 0) (d : Int)).toNat) :=
        List.map_congr_left (fun j hj => this j hj)
  · rw [buildAxisList, if_pos hs]

theorem buildNewAxes_getD (shape : List Nat) (shifts : List Int) (i : Nat)
    (hi : i < shape.length) (hlen : shifts.length = shape.length) :
    (buildNewAxes shape shifts).getD i [] =
      buildAxisList (shape.getD i 0) (shifts.getD i 0) := by
  have hzl : (buildNewAxes shape shifts).length = shape.length := by
    simp [buildNewAxes, List.length_zipWith, hlen]
  rw [List.getD_eq_getElem _ _ (by rw [hzl]; exact hi),
    List.getD_eq_getElem _ _ hi, List.getD_eq_getElem _ _ (by rw [hlen]; exact hi)]
  simp only [buildNewAxes, List.getElem_zipWith]

theorem buildValue_getD (shape : List Nat) (index : Nat) (hi : index < shape.length) :
    (buildValue shape).getD (shape.length - 1 - index) 0 = (shape.drop (index + 1)).prod := by
  have hk : shape.length - 1 - index < shape.length := by omega
  have hbl : (buildValue shape).length = shape.length := by simp [buildValue]
  rw [List.getD_eq_getElem _ _ (by rw [hbl]; exact hk)]
  simp only [buildValue, List.getElem_map, List.getElem_range]
  rw [List.take_reverse, List.prod_reverse]
  congr 2
  omega

theorem flatMap_pure {α β : Type} (l : List α) (f : α → β) :
    (l.flatMap fun x => [f x]) = l.map f := by
  induction l with
  | nil => rfl
  | cons a l ih => simp [List.flatMap_cons, ih]

theorem RollDfsAux_eq (shape : List Nat) (shifts : List Int)
    (hlen : shifts.length = shape.length) :
    ∀ (fuel index mid : Nat), fuel = shape.length - index → index < shape.length →
    RollDfsAux (buildNewAxes shape shifts) (buildValue shape) fuel index shape.length mid =
      (allIndices (shape.drop index)).map
        (fun js => mid + linearize (shape.drop index)
          (srcIdxC (shape.drop index) (shifts.drop index) js)) := by
  intro fuel
  induction fuel with
  | zero => intro index mid hf hi; omega
  | succ fuel ih =>
    intro index mid hf hi
    have hdrop : shape.drop index = shape[index] :: shape.drop (index + 1) :=
      List.drop_eq_getElem_cons hi
    have his : index < shifts.length := by rw [hlen]; exact hi
    have hdrops : shifts.drop index = shifts[index] :: shifts.drop (index + 1) :=
      List.drop_eq_getElem_cons his
    have hax : (buildNewAxes shape shifts).getD index [] =
        (List.range shape[index]).map
          (fun j : Nat => (Int.tmod ((j : Int) + (shape[index] : Int) - shifts[index])
            (shape[index] : Int)).toNat) := by
      rw [buildNewAxes_getD shape shifts index hi hlen, List.getD_eq_getElem _ _ hi,
        List.getD_eq_getElem _ _ his, buildAxisList_eq_map]
    by_cases hlast : index + 1 < shape.length
    · rw [RollDfsAux, if_pos hlast, hax]
      have hstride : (buildValue shape).getD (shape.length - 1 - index) 0 =
          (shape.drop (index + 1)).prod := buildValue_getD shape index hi
      rw [hstride]
      rw [List.flatMap_map]
      have hrec : ∀ j : Nat,
          RollDfsAux (buildNewAxes shape shifts) (buildValue shape) fuel (index + 1)
            shape.length (mid + ((Int.tmod ((j : Int) + (shape[index] : Int) - shifts[index])
              (shape[index] : Int)).toNat) * (shape.drop (index + 1)).prod) =
          (allIndices (shape.drop (index + 1))).map
            (fun js => (mid + ((Int.tmod ((j : Int) + (shape[index] : Int) - shifts[index])
              (shape[index] : Int)).toNat) * (shape.drop (index + 1)).prod) +
              linearize (shape.drop (index + 1))
                (srcIdxC (shape.drop (index + 1)) (shifts.drop (index + 1)) js)) := by
        intro j
        exact ih (index + 1) _ (by omega) hlast
      rw [hdrop, hdrops]
      rw [show allIndices (shape[index] :: shape.drop (index + 1)) =
        (List.range shape[index]).flatMap
          (fun j => (allIndices (shape.drop (index + 1))).map (fun js => j :: js)) from rfl]
      rw [List.map_flatMap]
      apply List.flatMap_congr
      intro j _
      rw [hrec j, List.map_map]
      apply List.map_congr_left
      intro js _
      simp only [Function.comp_apply, linearize, srcIdxC]
      omega
    · have hidx : index + 1 = shape.length := by omega
      rw [RollDfsAux, if_neg hlast, hax, List.map_map]
      have hnil : shape.drop (index + 1) = [] := by
        apply List.drop_eq_nil_of_le; omega
      rw [hdrop, hdrops, hnil]
      have hsingle : allIndices [shape[index]] =
          (List.range shape[index]).map (fun j => [j]) := by
        show (List.range shape[index]).flatMap
          (fun j => (allIndices []).map (fun js => j :: js)) = _
        have hs : ∀ j ∈ List.range shape[index],
            ((allIndices []).map (fun js => j :: js)) = [[j]] := fun j _ => rfl
        rw [List.flatMap_congr hs]
        exact flatMap_pure _ _
      rw [hsingle, List.map_map]
      apply List.map_congr_left
      intro j _
      simp [Function.comp, linearize, srcIdxC]

theorem rollNewIndex_spec (shape : List Nat) (shifts : List Int)
    (hlen : shifts.length = shape.length) (hpos : 0 < shape.length) :
    rollNewIndex shape shifts =
      (allIndices shape).map (fun js => linearize shape (srcIdxC shape shifts js)) := by
  have h := RollDfsAux_eq shape shifts hlen (shape.length - 0) 0 0 rfl hpos
  rw [rollNewIndex, RollDfs, h]
  simp [List.drop_zero]

/-- Specification formula for the per-axis source index, written with the
mathematical (floor) modulus: axis `k` of the source index is
`(j_k + d_k - s_k) mod d_k`. -/
def srcIdxSpec : List Nat → List Int → List Nat → List Nat
  | d :: ds, s :: ss, j :: js =>
    (((j : Int) + (d : Int) - s) % (d : Int)).toNat :: srcIdxSpec ds ss js
  | _, _, _ => []

theorem srcIdxC_eq_spec (shape : List Nat) (shifts : List Int) (j : List Nat)
    (hb : List.Forall₂ (fun (s : Int) (d : Nat) => s ≤ (d : Int)) shifts shape) :
    srcIdxC shape shifts j = srcIdxSpec shape shifts j := by
  induction shape generalizing shifts j with
  | nil =>
    cases hb
    cases j <;> rfl
  | cons d ds ih =>
    cases shifts with
    | nil => cases hb
    | cons s ss =>
      cases hb with
      | cons hsd htail =>
        cases j with
        | nil => rfl
        | cons a js =>
          simp only [srcIdxC, srcIdxSpec]
          have hnn : (0 : Int) ≤ (a : Int) + (d : Int) - s := by omega
          rw [Int.tmod_eq_emod hnn (by positivity), ih ss js htail]

/-- Claim C1: in per-axis roll mode the permutation table `new_index` built by
`RollDfs` before the gather kernel has exactly one entry per destination linear
offset, listed in destination-linear (row-major, outermost axis slowest)
order, and the entry for the destination with multi-index `(j_0, ..., j_(n-1))`
is the linear offset of the source multi-index whose axis-`k` component is
`(j_k + d_k - s_k) mod d_k`; in particular rolling the 2x3 array
`[[1,2,3],[4,5,6]]` along axis 1 by shift 1 yields `[[3,1,2],[6,4,5]]`. -/
theorem roll_perAxis_table_correct (shape : List Nat) (shifts : List Int)
    (hlen : shifts.length = shape.length) (hpos : 0 < shape.length)
    (hb : List.Forall₂ (fun (s : Int) (d : Nat) => s ≤ (d : Int)) shifts shape) :
    (rollNewIndex shape shifts).length = shape.prod ∧
    (∀ j, validIdx shape j = true →
      (rollNewIndex shape shifts).getD (linearize shape j) 0 =
        linearize shape (srcIdxSpec shape shifts j)) ∧
    NumpyRollCompute ⟨some [1], some [1]⟩ .kWriteTo [2, 3]
      [1, 2, 3, 4, 5, 6] [0, 0, 0, 0, 0, 0] = some [3, 1, 2, 6, 4, 5] := by
  have hspec := rollNewIndex_spec shape shifts hlen hpos
  refine ⟨?_, ?_, by decide⟩
  · rw [hspec, List.length_map, allIndices_length]
  · intro j hj
    rw [hspec]
    have hlt : linearize shape j <
        ((allIndices shape).map (fun js => linearize shape (srcIdxC shape shifts js))).length := by
      rw [List.length_map, allIndices_length]
      exact linearize_lt shape j hj
    rw [List.getD_eq_getElem _ _ hlt, List.getElem_map]
    have hlt2 : linearize shape j < (allIndices shape).length := by
      rw [allIndices_length]; exact linearize_lt shape j hj
    rw [← List.getD_eq_getElem (allIndices shape) [] hlt2, allIndices_getD shape j hj,
      srcIdxC_eq_spec shape shifts j hb]

/-- Witness for C1 at shape `[2,3]` with per-axis shifts `[0,1]` and
destination multi-index `[1,2]`. -/
theorem roll_perAxis_table_correct_witness :
    (rollNewIndex [2, 3] [0, 1]).length = 6 ∧
    (rollNewIndex [2, 3] [0, 1]).getD (linearize [2, 3] [1, 2]) 0 =
      linearize [2, 3] (srcIdxSpec [2, 3] [0, 1] [1, 2]) := by
  have h := roll_perAxis_table_correct [2, 3] [0, 1] (by decide) (by decide) (by decide)
  exact ⟨h.1, h.2.1 [1, 2] (by decide)⟩

theorem normShift_emod (s : Int) (d : Nat) (hd : 0 < d) :
    normShift s d % (d : Int) = s % (d : Int) ∧
    (0 ≤ Int.tmod s (d : Int) → normShift s d = s % (d : Int)) := by
  have hdz : (0 : Int) < (d : Int) := by exact_mod_cast hd
  have hcong : Int.tmod s (d : Int) % (d : Int) = s % (d : Int) := by
    have hdecomp := Int.tdiv_add_tmod s (d : Int)
    have hrw : s = Int.tmod s (d : Int) + (d : Int) * Int.tdiv s (d : Int) := by linarith
    calc Int.tmod s (d : Int) % (d : Int)
        = (Int.tmod s (d : Int) + (d : Int) * Int.tdiv s (d : Int)) % (d : Int) := by
          rw [Int.add_mul_emod_self_left]
      _ = s % (d : Int) := by rw [← hrw]
  by_cases ht : Int.tmod s (d : Int) < 0
  · constructor
    · have hval : normShift s d = s + (d : Int) := by
        rw [normShift]
        simp [ht]
      have hplus : (s + (d : Int)) % (d : Int) = s % (d : Int) := by
        have h2 := Int.add_mul_emod_self_left s (d : Int) 1
        rw [mul_one] at h2
        exact h2
      rw [hval]
      exact hplus
    · intro h; omega
  · push_neg at ht
    have htlt : Int.tmod s (d : Int) < (d : Int) := Int.tmod_lt_of_pos s hdz
    have hval : normShift s d = Int.tmod s (d : Int) := by
      rw [normShift]
      simp [not_lt.mpr ht]
    constructor
    · rw [hval, hcong]
    · intro _
      rw [hval, ← hcong, Int.emod_eq_of_lt ht htlt]

theorem normalizeShifts_getD (shape : List Nat) (shifts : List Int) (i : Nat)
    (hi : i < shifts.length) (hlen : shifts.length = shape.length) :
    (normalizeShifts shape shifts).getD i 0 =
      normShift (shifts.getD i 0) (shape.getD i 0) := by
  have hns : (normalizeShifts shape shifts).length = shifts.length := by
    simp [normalizeShifts, List.length_zipWith, hlen]
  rw [List.getD_eq_getElem _ _ (by rw [hns]; exact hi),
    List.getD_eq_getElem _ _ hi, List.getD_eq_getElem _ _ (by rw [← hlen]; exact hi)]
  simp only [normalizeShifts, List.getElem_zipWith]

/-- Claim C2 (amended): after the keep-in-legal-range step, the effective shift
is always congruent to the requested shift modulo the axis size `d_i`, and it
equals the floor-mod of the requested shift (hence lies in `[0, d_i)`) whenever
the requested shift is at least `-d_i`.  For a requested shift below `-d_i`
(not a multiple of `d_i`) the stored value is `shift + d_i`, which is negative
(see the counterexample), though still congruent modulo `d_i`. -/
theorem roll_perAxis_shift_normalization (shape : List Nat) (shifts : List Int) (i : Nat)
    (hi : i < shifts.length) (hlen : shifts.length = shape.length)
    (hd : 0 < shape.getD i 0) :
    (normalizeShifts shape shifts).getD i 0 % ((shape.getD i 0 : Nat) : Int) =
      shifts.getD i 0 % ((shape.getD i 0 : Nat) : Int) ∧
    (-((shape.getD i 0 : Nat) : Int) ≤ shifts.getD i 0 →
      (normalizeShifts shape shifts).getD i 0 =
        shifts.getD i 0 % ((shape.getD i 0 : Nat) : Int) ∧
      0 ≤ (normalizeShifts shape shifts).getD i 0 ∧
      (normalizeShifts shape shifts).getD i 0 < ((shape.getD i 0 : Nat) : Int)) := by
  set s := shifts.getD i 0 with hs
  set d := shape.getD i 0 with hdd
  have hrw := normalizeShifts_getD shape shifts i hi hlen
  have hdz : (0 : Int) < (d : Int) := by exact_mod_cast hd
  have hmain := normShift_emod s d hd
  constructor
  · rw [hrw]; exact hmain.1
  · intro hge
    by_cases ht : 0 ≤ Int.tmod s (d : Int)
    · have heq := hmain.2 ht
      rw [hrw, heq]
      exact ⟨rfl, Int.emod_nonneg s (by omega), Int.emod_lt_of_pos s hdz⟩
    · push_neg at ht
      have hneg : s < 0 := by
        by_contra hc
        push_neg at hc
        exact absurd (Int.tmod_nonneg (d : Int) hc) (by omega)
      have hval : normShift s d = s + (d : Int) := by
        rw [normShift]
        simp [ht]
      have hbound : 0 ≤ s + (d : Int) ∧ s + (d : Int) < (d : Int) := by omega
      have hfloor : s % (d : Int) = s + (d : Int) := by
        have : (s + (d : Int)) % (d : Int) = s % (d : Int) := by
          have h2 := Int.add_mul_emod_self_left s (d : Int) 1
          rw [mul_one] at h2
          exact h2
        rw [← this, Int.emod_eq_of_lt hbound.1 hbound.2]
      rw [hrw, hval, hfloor]
      exact ⟨rfl, hbound.1, hbound.2⟩

/-- Witness for the amended C2 at shape `[3]`, requested shift `[-2]`. -/
theorem roll_perAxis_shift_normalization_witness :
    (normalizeShifts [3] [-2]).getD 0 0 % (3 : Int) = (-2 : Int) % 3 ∧
    (normalizeShifts [3] [-2]).getD 0 0 = (-2 : Int) % 3 ∧
    0 ≤ (normalizeShifts [3] [-2]).getD 0 0 ∧
    (normalizeShifts [3] [-2]).getD 0 0 < 3 := by
  have h := roll_perAxis_shift_normalization [3] [-2] 0 (by decide) (by decide) (by decide)
  exact ⟨h.1, h.2 (by decide)⟩

/-- Counterexample to C2 as stated: for requested shift `-5` on an axis of
size `3`, the value after normalization is `-2`, which does not lie in
`[0, 3)` and differs from the floor-mod `(-5) mod 3 = 1`. -/
theorem roll_perAxis_shift_normalization_counterexample :
    (normalizeShifts [3] [-5]).getD 0 0 = -2 ∧
    ¬ (0 ≤ (normalizeShifts [3] [-5]).getD 0 0 ∧
       (normalizeShifts [3] [-5]).getD 0 0 < 3) ∧
    (normalizeShifts [3] [-5]).getD 0 0 ≠ (-5 : Int) % 3 := by decide

/-- Claim C3 evaluation at the failing input: with `ndim = 2` and requested
axis list `[0, -5]`, normalization yields `[0, -3]`, whose second entry is
still negative, yet the validation loop passes, because the lower-bound check
`CHECK_GE(axes[0], 0)` reads index 0 on every iteration instead of index `i`.
The per-axis branch then proceeds to `shifts[axes[i]]` with a negative
subscript, which is undefined behaviour in the source. -/
theorem roll_axis_bounds_check_slip :
    normalizeAxes [0, -5] 2 = [0, -3] ∧
    rollAxisChecksPass (normalizeAxes [0, -5] 2) 2 = true ∧
    ¬ (∀ a ∈ normalizeAxes [0, -5] 2, 0 ≤ a ∧ a < 2) := by decide

theorem tmod_neg_left (m : Nat) (n : Int) :
    Int.tmod (-((m : Nat) : Int)) n = -(Int.tmod ((m : Nat) : Int) n) := by
  cases m with
  | zero => simp
  | succ k =>
    cases n with
    | ofNat n2 =>
      cases n2 with
      | zero => rfl
      | succ n3 => rfl
    | negSucc n2 => rfl

theorem tmod_gt_neg (s n : Int) (hn : 0 < n) : -n < Int.tmod s n := by
  cases s with
  | ofNat m =>
    have := @Int.tmod_nonneg (Int.ofNat m) n (Int.ofNat_nonneg m)
    omega
  | negSucc m =>
    have heq : Int.negSucc m = -(((m + 1 : Nat) : Nat) : Int) := by
      rw [Int.negSucc_eq]
      push_cast
      ring
    rw [heq, tmod_neg_left]
    have := Int.tmod_lt_of_pos (((m + 1 : Nat) : Nat) : Int) hn
    omega

theorem ite_neg_add_eq_emod (a n : Int) (_hn : 0 < n) (hlo : -n ≤ a) (hhi : a < n) :
    (if a < 0 then a + n else a) = a % n := by
  by_cases h : a < 0
  · rw [if_pos h]
    have h1 : (a + n) % n = a % n := by
      have h2 := Int.add_mul_emod_self_left a n 1
      rw [mul_one] at h2
      exact h2
    rw [← h1, Int.emod_eq_of_lt (by omega) (by omega)]
  · rw [if_neg h, Int.emod_eq_of_lt (by omega) hhi]

theorem sub_emod_emod (i s n : Int) : (i - s % n) % n = (i - s) % n := by
  rw [Int.sub_emod i (s % n) n, Int.emod_emod_of_dvd s (dvd_refl n), ← Int.sub_emod]

theorem getD_map_range {β : Type} (n : Nat) (f : Nat → β) (i : Nat) (dflt : β) (h : i < n) :
    ((List.range n).map f).getD i dflt = f i := by
  rw [List.getD_eq_getElem _ _ (by simpa using h), List.getElem_map, List.getElem_range]

theorem rollFlatEffShift_eq (s : Int) (n : Nat) (hn : 0 < n) :
    rollFlatEffShift s n = s % (n : Int) := by
  have hdz : (0 : Int) < (n : Int) := by exact_mod_cast hn
  have hcong : Int.tmod s (n : Int) % (n : Int) = s % (n : Int) := by
    have hdecomp := Int.tdiv_add_tmod s (n : Int)
    have hrw : s = Int.tmod s (n : Int) + (n : Int) * Int.tdiv s (n : Int) := by linarith
    calc Int.tmod s (n : Int) % (n : Int)
        = (Int.tmod s (n : Int) + (n : Int) * Int.tdiv s (n : Int)) % (n : Int) := by
          rw [Int.add_mul_emod_self_left]
      _ = s % (n : Int) := by rw [← hrw]
  have hlo : -(n : Int) < Int.tmod s (n : Int) := tmod_gt_neg s (n : Int) hdz
  have hhi : Int.tmod s (n : Int) < (n : Int) := Int.tmod_lt_of_pos s hdz
  rw [rollFlatEffShift]
  show (if Int.tmod s (n : Int) < 0 then Int.tmod s (n : Int) + (n : Int)
    else Int.tmod s (n : Int)) = s % (n : Int)
  rw [ite_neg_add_eq_emod (Int.tmod s (n : Int)) (n : Int) hdz (by omega) hhi, hcong]

/-- Claim C4: in flatten mode (no axis list) the effective shift is the
requested shift reduced modulo the total size and normalized into
`[0, total_size)` by adding the total size when negative, and every
destination offset `i` reads its value from source offset
`(i - shift) mod total_size`, combined with the old destination value
according to the write policy. -/
theorem roll_flatten_formula (shape : List Nat) (s : Int) (srest : List Int)
    (in_data out_old : List Int) (req : OpReqType)
    (hnz : shape.prod ≠ 0) (hin : in_data.length = shape.prod)
    (hout : out_old.length = shape.prod) :
    rollFlatEffShift s shape.prod = s % (shape.prod : Int) ∧
    0 ≤ rollFlatEffShift s shape.prod ∧
    rollFlatEffShift s shape.prod < (shape.prod : Int) ∧
    NumpyRollCompute ⟨some (s :: srest), none⟩ req shape in_data out_old =
      some (rollFlatLaunch req out_old in_data (rollFlatEffShift s shape.prod)) ∧
    (rollFlatLaunch req out_old in_data (rollFlatEffShift s shape.prod)).length =
      shape.prod ∧
    (∀ i, i < shape.prod →
      (rollFlatLaunch req out_old in_data (rollFlatEffShift s shape.prod)).getD i 0 =
        kernelAssign req (out_old.getD i 0)
          (in_data.getD ((((i : Nat) : Int) - s) % ((shape.prod : Nat) : Int)).toNat 0)) := by
  have hp : 0 < shape.prod := Nat.pos_of_ne_zero hnz
  have hdz : (0 : Int) < ((shape.prod : Nat) : Int) := by exact_mod_cast hp
  have heff := rollFlatEffShift_eq s shape.prod hp
  refine ⟨heff, ?_, ?_, ?_, ?_, ?_⟩
  · rw [heff]; exact Int.emod_nonneg s (by omega)
  · rw [heff]; exact Int.emod_lt_of_pos s hdz
  · rw [NumpyRollCompute, if_neg hnz]
    rfl
  · simp [rollFlatLaunch, hout]
  · intro i hi
    have hiout : i < out_old.length := by rw [hout]; exact hi
    rw [rollFlatLaunch, getD_map_range out_old.length _ i 0 hiout]
    have hidx : (if ((i : Nat) : Int) - rollFlatEffShift s shape.prod < 0 then
        ((i : Nat) : Int) - rollFlatEffShift s shape.prod + ((in_data.length : Nat) : Int)
      else ((i : Nat) : Int) - rollFlatEffShift s shape.prod) =
        (((i : Nat) : Int) - s) % ((shape.prod : Nat) : Int) := by
      have hs1 : 0 ≤ s % ((shape.prod : Nat) : Int) := Int.emod_nonneg s (by omega)
      have hs2 : s % ((shape.prod : Nat) : Int) < ((shape.prod : Nat) : Int) :=
        Int.emod_lt_of_pos s hdz
      have hii : ((i : Nat) : Int) < ((shape.prod : Nat) : Int) := by exact_mod_cast hi
      have hii0 : (0 : Int) ≤ ((i : Nat) : Int) := by positivity
      have hcast : ((in_data.length : Nat) : Int) = ((shape.prod : Nat) : Int) := by
        exact_mod_cast hin
      rw [hcast, heff]
      rw [ite_neg_add_eq_emod (((i : Nat) : Int) - s % ((shape.prod : Nat) : Int))
        ((shape.prod : Nat) : Int) hdz (by omega) (by omega)]
      exact sub_emod_emod _ s _
    rw [RollAxisNone_forward]
    show kernelAssign req (out_old.getD i 0) (in_data.getD (Int.toNat (if ((i : Nat) : Int)
      - rollFlatEffShift s shape.prod < 0 then ((i : Nat) : Int) - rollFlatEffShift s shape.prod
      + ((in_data.length : Nat) : Int) else ((i : Nat) : Int)
      - rollFlatEffShift s shape.prod)) 0) = _
    rw [hidx]

/-- Witness for C4 at shape `[3]`, requested shift `-4`, destination offset 0. -/
theorem roll_flatten_formula_witness :
    rollFlatEffShift (-4) 3 = (-4 : Int) % 3 ∧
    (rollFlatLaunch .kWriteTo [0, 0, 0] [10, 20, 30] (rollFlatEffShift (-4) 3)).getD 0 0 =
      kernelAssign .kWriteTo 0 ([10, 20, 30].getD (((0 : Int) - (-4)) % 3).toNat 0) := by
  have h := roll_flatten_formula [3] (-4) [] [10, 20, 30] [0, 0, 0] .kWriteTo
    (by decide) (by decide) (by decide)
  exact ⟨h.1, h.2.2.2.2.2 0 (by decide)⟩

theorem normalizeAxes_length (axs : List Int) (ndim : Nat) :
    (normalizeAxes axs ndim).length = axs.length := by
  simp [normalizeAxes]

/-- Claim C5: in per-axis mode a length-1 shift tuple is broadcast to every
named axis; a shift tuple whose length differs from the axis tuple length (and
is not 1) is a fatal configuration error raised before any element is computed
or written; when the lengths match, the i-th shift is paired with the i-th
axis. -/
theorem roll_shift_axis_length_rule (shape : List Nat) (in_data out_old : List Int)
    (req : OpReqType) (axs sh : List Int)
    (hnz : shape.prod ≠ 0)
    (hchk : rollAxisChecksPass (normalizeAxes axs shape.length) shape.length = true) :
    (sh.length ≠ 1 → sh.length ≠ axs.length →
      NumpyRollCompute ⟨some sh, some axs⟩ req shape in_data out_old = none) ∧
    (sh.length = 1 →
      NumpyRollCompute ⟨some sh, some axs⟩ req shape in_data out_old =
        some (rollTableLaunch req out_old in_data (rollNewIndex shape (normalizeShifts shape
          (assignShiftPairs
            ((normalizeAxes axs shape.length).map (fun a => (a.toNat, sh.getD 0 0)))
            (List.replicate shape.length 0)))))) ∧
    (sh.length = axs.length → sh.length ≠ 1 →
      NumpyRollCompute ⟨some sh, some axs⟩ req shape in_data out_old =
        some (rollTableLaunch req out_old in_data (rollNewIndex shape (normalizeShifts shape
          (assignShiftPairs
            (((normalizeAxes axs shape.length).zip sh).map (fun p => (p.1.toNat, p.2)))
            (List.replicate shape.length 0)))))) := by
  refine ⟨?_, ?_, ?_⟩
  · intro h1 h2
    have hsp : rollShiftPairs (normalizeAxes axs shape.length) sh = none := by
      rw [rollShiftPairs, if_neg h1, if_pos (by rw [normalizeAxes_length]; exact h2)]
    rw [NumpyRollCompute, if_neg hnz]
    simp only [hsp, hchk]
    simp
  · intro h1
    have hsp : rollShiftPairs (normalizeAxes axs shape.length) sh =
        some ((normalizeAxes axs shape.length).map (fun a => (a.toNat, sh.getD 0 0))) := by
      rw [rollShiftPairs, if_pos h1]
    rw [NumpyRollCompute, if_neg hnz]
    simp only [hsp, hchk]
    simp
  · intro h1 h2
    have hsp : rollShiftPairs (normalizeAxes axs shape.length) sh =
        some (((normalizeAxes axs shape.length).zip sh).map (fun p => (p.1.toNat, p.2))) := by
      rw [rollShiftPairs, if_neg h2,
        if_neg (by rw [normalizeAxes_length]; exact not_not.mpr h1)]
    rw [NumpyRollCompute, if_neg hnz]
    simp only [hsp, hchk]
    simp

/-- Witness for C5 at shape `[2, 3]`, axis list `[0, 1]`: a length-2 shift
tuple `[1, 2]` is paired positionally, a length-1 tuple `[1]` is broadcast,
and a length-3 tuple `[1, 2, 3]` is rejected. -/
theorem roll_shift_axis_length_rule_witness :
    NumpyRollCompute ⟨some [1, 2, 3], some [0, 1]⟩ .kWriteTo [2, 3]
      [1, 2, 3, 4, 5, 6] [0, 0, 0, 0, 0, 0] = none ∧
    NumpyRollCompute ⟨some [1], some [0, 1]⟩ .kWriteTo [2, 3]
      [1, 2, 3, 4, 5, 6] [0, 0, 0, 0, 0, 0] =
      some (rollTableLaunch .kWriteTo [0, 0, 0, 0, 0, 0] [1, 2, 3, 4, 5, 6]
        (rollNewIndex [2, 3] (normalizeShifts [2, 3] (assignShiftPairs
          ((normalizeAxes [0, 1] 2).map (fun a => (a.toNat, ([1] : List Int).getD 0 0)))
          (List.replicate 2 0))))) ∧
    NumpyRollCompute ⟨some [1, 2], some [0, 1]⟩ .kWriteTo [2, 3]
      [1, 2, 3, 4, 5, 6] [0, 0, 0, 0, 0, 0] =
      some (rollTableLaunch .kWriteTo [0, 0, 0, 0, 0, 0] [1, 2, 3, 4, 5, 6]
        (rollNewIndex [2, 3] (normalizeShifts [2, 3] (assignShiftPairs
          (((normalizeAxes [0, 1] 2).zip [1, 2]).map (fun p => (p.1.toNat, p.2)))
          (List.replicate 2 0))))) := by
  have ha := roll_shift_axis_length_rule [2, 3] [1, 2, 3, 4, 5, 6] [0, 0, 0, 0, 0, 0]
    .kWriteTo [0, 1] [1, 2, 3] (by decide) (by decide)
  have hb := roll_shift_axis_length_rule [2, 3] [1, 2, 3, 4, 5, 6] [0, 0, 0, 0, 0, 0]
    .kWriteTo [0, 1] [1] (by decide) (by decide)
  have hc := roll_shift_axis_length_rule [2, 3] [1, 2, 3, 4, 5, 6] [0, 0, 0, 0, 0, 0]
    .kWriteTo [0, 1] [1, 2] (by decide) (by decide)
  exact ⟨ha.1 (by decide) (by decide), hb.2.1 (by decide), hc.2.2 (by decide) (by decide)⟩

/-- Claim C6: a zero-size input short-circuits the roll entry point to a
successful no-op — the pre-existing output buffer is returned untouched and no
validation of the shift or axis configuration is performed. -/
theorem roll_zero_size_noop (param : NumpyRollParam) (req : OpReqType) (shape : List Nat)
    (in_data out_old : List Int) (h : shape.prod = 0) :
    NumpyRollCompute param req shape in_data out_old = some out_old := by
  rw [NumpyRollCompute, if_pos h]

/-- Witness for C6: shape `[0]` with a configuration (missing shift, axis list
`[5, 7]` out of range) that would otherwise be fatal. -/
theorem roll_zero_size_noop_witness :
    NumpyRollCompute ⟨none, some [5, 7]⟩ .kWriteTo [0] [] [7] = some [7] :=
  roll_zero_size_noop ⟨none, some [5, 7]⟩ .kWriteTo [0] [] [7] (by decide)

theorem assignShiftPairs_append (l1 l2 : List (Nat × Int)) (init : List Int) :
    assignShiftPairs (l1 ++ l2) init = assignShiftPairs l2 (assignShiftPairs l1 init) := by
  simp [assignShiftPairs, List.foldl_append]

theorem assignShiftPairs_set_absorb (l : List (Nat × Int)) (a : Nat) (s : Int) :
    ∀ m : List Int, (∃ s2, (a, s2) ∈ l) →
      assignShiftPairs l (m.set a s) = assignShiftPairs l m := by
  induction l with
  | nil =>
    intro m h
    obtain ⟨s2, hs2⟩ := h
    simp at hs2
  | cons p l ih =>
    intro m h
    obtain ⟨b, t⟩ := p
    by_cases hba : b = a
    · subst hba
      show assignShiftPairs l ((m.set b s).set b t) = assignShiftPairs l (m.set b t)
      rw [List.set_set]
    · obtain ⟨s2, hs2⟩ := h
      have hs2l : (a, s2) ∈ l := by
        rcases List.mem_cons.mp hs2 with heq | hmem
        · exact absurd (congrArg Prod.fst heq).symm hba
        · exact hmem
      show assignShiftPairs l ((m.set a s).set b t) = assignShiftPairs l (m.set b t)
      rw [List.set_comm s t m (fun hh => hba hh.symm)]
      exact ih (m.set b t) ⟨s2, hs2l⟩

/-- Claim C10: when the axis list names axis `a` once in position `|l1|` and
again later (inside `l2`), the assignment loop discards the earlier shift
`s1` — the result equals the one obtained by deleting the earlier occurrence,
so axis `a` ends up with the shift of its last occurrence, and the permutation
table built from the resulting shift vector is identical. -/
theorem roll_duplicate_axis_last_wins (shape : List Nat) (l1 l2 : List (Nat × Int))
    (a : Nat) (s1 : Int) (init : List Int) (h : ∃ s2, (a, s2) ∈ l2) :
    assignShiftPairs (l1 ++ (a, s1) :: l2) init = assignShiftPairs (l1 ++ l2) init ∧
    rollNewIndex shape (normalizeShifts shape (assignShiftPairs (l1 ++ (a, s1) :: l2) init)) =
      rollNewIndex shape (normalizeShifts shape (assignShiftPairs (l1 ++ l2) init)) := by
  have h1 : assignShiftPairs (l1 ++ (a, s1) :: l2) init = assignShiftPairs (l1 ++ l2) init := by
    rw [assignShiftPairs_append, assignShiftPairs_append]
    show assignShiftPairs l2 ((assignShiftPairs l1 init).set a s1) =
      assignShiftPairs l2 (assignShiftPairs l1 init)
    exact assignShiftPairs_set_absorb l2 a s1 (assignShiftPairs l1 init) h
  exact ⟨h1, by rw [h1]⟩

/-- Witness for C10: axis 1 named twice with shifts 5 then 2 — the pair
`(1, 5)` is discarded. -/
theorem roll_duplicate_axis_last_wins_witness :
    assignShiftPairs [(1, 5), (1, 2)] [0, 0] = assignShiftPairs [(1, 2)] [0, 0] ∧
    rollNewIndex [2, 3] (normalizeShifts [2, 3] (assignShiftPairs [(1, 5), (1, 2)] [0, 0])) =
      rollNewIndex [2, 3] (normalizeShifts [2, 3] (assignShiftPairs [(1, 2)] [0, 0])) :=
  roll_duplicate_axis_last_wins [2, 3] [] [(1, 2)] 1 5 [0, 0] ⟨2, by decide⟩

theorem validIdx_length (shape j : List Nat) (h : validIdx shape j = true) :
    j.length = shape.length := by
  induction shape generalizing j with
  | nil => cases j with
    | nil => rfl
    | cons a js => simp [validIdx] at h
  | cons d ds ih =>
    cases j with
    | nil => simp [validIdx] at h
    | cons a js =>
      simp only [validIdx, Bool.and_eq_true, decide_eq_true_eq] at h
      simp [ih js h.2]

theorem validIdx_append (s1 s2 j1 j2 : List Nat) (h1 : validIdx s1 j1 = true)
    (h2 : validIdx s2 j2 = true) : validIdx (s1 ++ s2) (j1 ++ j2) = true := by
  induction s1 generalizing j1 with
  | nil =>
    cases j1 with
    | nil => simpa using h2
    | cons a js => simp [validIdx] at h1
  | cons d ds ih =>
    cases j1 with
    | nil => simp [validIdx] at h1
    | cons a js =>
      simp only [validIdx, Bool.and_eq_true, decide_eq_true_eq] at h1
      simp only [List.cons_append, validIdx, Bool.and_eq_true, decide_eq_true_eq]
      exact ⟨h1.1, ih js h1.2⟩

theorem validIdx_reverse (shape j : List Nat) (h : validIdx shape j = true) :
    validIdx shape.reverse j.reverse = true := by
  induction shape generalizing j with
  | nil =>
    cases j with
    | nil => simpa using h
    | cons a js => simp [validIdx] at h
  | cons d ds ih =>
    cases j with
    | nil => simp [validIdx] at h
    | cons a js =>
      simp only [validIdx, Bool.and_eq_true, decide_eq_true_eq] at h
      simp only [List.reverse_cons]
      exact validIdx_append ds.reverse [d] js.reverse [a] (ih js h.2)
        (by simp [validIdx, h.1])

theorem getD_map_eq {α β : Type} (l : List α) (f : α → β) (p : Nat) (dA : α) (dB : β)
    (hp : p < l.length) : (l.map f).getD p dB = f (l.getD p dA) := by
  rw [List.getD_eq_getElem _ _ (by simpa using hp), List.getElem_map,
    List.getD_eq_getElem _ _ hp]

theorem indexOf_range_reverse (n k : Nat) (h : k < n) :
    ((List.range n).reverse).indexOf k = n - 1 - k := by
  induction n with
  | zero => omega
  | succ n ih =>
    rw [List.range_succ, List.reverse_append]
    simp only [List.reverse_singleton, List.singleton_append, List.indexOf_cons]
    by_cases hk : k = n
    · subst hk
      simp
    · have hkn : k < n := by omega
      have hbeq : (n == k) = false := by simp [hk]; omega
      rw [hbeq]
      simp only [cond_false]
      rw [ih hkn]
      omega

/-- Index lookup used by the modelled transpose: component `k` of the source
multi-index is the destination component at the position where `axes` places
axis `k`, i.e. `m[axes[i]] = j[i]`. -/
def permuteIndex (axes j : List Nat) (n : Nat) : List Nat :=
  (List.range n).map (fun k => j.getD (axes.indexOf k) 0)

/-- Modelled from the spec: `TransposeImpl` — the generic strided-copy
transform (declared in `../tensor/matrix_op-inl.h`, outside this core) that
the transpose dispatcher delegates to.  Per the spec, output axis `i` has size
`shape[axes[i]]` and the output element at any multi-index equals the input
element at the multi-index permuted by `axes`. -/
def TransposeImpl (shape : List Nat) (data : List Int) (axes : List Nat) :
    List Nat × List Int :=
  let oshape := axes.map (fun a => shape.getD a 0)
  (oshape, (allIndices oshape).map
    (fun j => data.getD (linearize shape (permuteIndex axes j shape.length)) 0))

/-- The transpose entry point `NumpyTranspose`: the write policy must be
`kWriteTo` (anything else is a fatal check); with the axes parameter unknown
(the `TShape(-1, 0)` sentinel, modelled as `none`) the full reversal
`axes[i] = ndim - 1 - i` is used. -/
def NumpyTranspose (axesParam : Option (List Nat)) (req : OpReqType)
    (shape : List Nat) (data : List Int) : Option (List Nat × List Int) :=
  if req ≠ OpReqType.kWriteTo then none
  else
    match axesParam with
    | some axes => some (TransposeImpl shape data axes)
    | none => some (TransposeImpl shape data ((List.range shape.length).reverse))

theorem permuteIndex_reverse (j : List Nat) (n : Nat) (hlen : j.length = n) :
    permuteIndex ((List.range n).reverse) j n = j.reverse := by
  rw [permuteIndex]
  have hstep : ∀ k ∈ List.range n,
      j.getD (((List.range n).reverse).indexOf k) 0 = j.reverse.getD k 0 := by
    intro k hk
    have hkn : k < n := List.mem_range.mp hk
    rw [indexOf_range_reverse n k hkn]
    by_cases hn1 : n - 1 - k < j.length
    · rw [List.getD_eq_getElem _ _ hn1,
        List.getD_eq_getElem _ _ (by rw [List.length_reverse, hlen]; exact hkn),
        List.getElem_reverse]
      congr 1
      omega
    · omega
  rw [List.map_congr_left hstep]
  have : j.reverse.length = n := by rw [List.length_reverse, hlen]
  rw [← this, map_range_getD]

theorem reversal_oshape (shape : List Nat) :
    ((List.range shape.length).reverse).map (fun a => shape.getD a 0) = shape.reverse := by
  rw [List.map_reverse, map_range_getD]

theorem transpose_default_apply (shape : List Nat) (data : List Int) :
    NumpyTranspose none OpReqType.kWriteTo shape data =
      some (shape.reverse, (allIndices shape.reverse).map
        (fun j => data.getD (linearize shape j.reverse) 0)) := by
  rw [NumpyTranspose, if_neg (by simp)]
  refine congrArg some ?_
  show (((List.range shape.length).reverse).map (fun a => shape.getD a 0),
    (allIndices (((List.range shape.length).reverse).map (fun a => shape.getD a 0))).map
      (fun j => data.getD
        (linearize shape (permuteIndex ((List.range shape.length).reverse) j shape.length)) 0))
    = _
  rw [reversal_oshape]
  refine congrArg (Prod.mk shape.reverse) ?_
  apply List.map_congr_left
  intro j hj
  have hv : validIdx shape.reverse j = true := (mem_allIndices shape.reverse j).mp hj
  have hjlen : j.length = shape.length := by
    rw [validIdx_length shape.reverse j hv, List.length_reverse]
  rw [permuteIndex_reverse j shape.length hjlen]

/-- Claim C7: with the axes parameter unknown, `NumpyTranspose` uses the full
reversal permutation (output axis `i` comes from input axis `ndim - 1 - i`),
and applying this default transpose twice returns the original buffer for
every shape of rank at least 1. -/
theorem transpose_default_reversal_involution (shape : List Nat) (data : List Int)
    (_hnd : 1 ≤ shape.length) (hlen : data.length = shape.prod) :
    (∀ i, i < shape.length →
      ((List.range shape.length).reverse).getD i 0 = shape.length - 1 - i) ∧
    NumpyTranspose none OpReqType.kWriteTo shape data =
      some (TransposeImpl shape data ((List.range shape.length).reverse)) ∧
    (NumpyTranspose none OpReqType.kWriteTo shape data).bind
      (fun r => NumpyTranspose none OpReqType.kWriteTo r.1 r.2) = some (shape, data) := by
  refine ⟨?_, ?_, ?_⟩
  · intro i hi
    rw [List.getD_eq_getElem _ _ (by simpa using hi), List.getElem_reverse,
      List.getElem_range]
    simp
  · rw [NumpyTranspose, if_neg (by simp)]
  · rw [transpose_default_apply shape data]
    show NumpyTranspose none OpReqType.kWriteTo shape.reverse
      ((allIndices shape.reverse).map (fun j => data.getD (linearize shape j.reverse) 0)) =
      some (shape, data)
    rw [transpose_default_apply]
    rw [List.reverse_reverse]
    refine congrArg some ?_
    refine congrArg (Prod.mk shape) ?_
    have hpoint : ∀ j ∈ allIndices shape,
        ((allIndices shape.reverse).map
          (fun x => data.getD (linearize shape x.reverse) 0)).getD
            (linearize shape.reverse j.reverse) 0 = data.getD (linearize shape j) 0 := by
      intro j hj
      have hv : validIdx shape j = true := (mem_allIndices shape j).mp hj
      have hvr : validIdx shape.reverse j.reverse = true := validIdx_reverse shape j hv
      have hp : linearize shape.reverse j.reverse < (allIndices shape.reverse).length := by
        rw [allIndices_length]
        exact linearize_lt _ _ hvr
      rw [getD_map_eq (allIndices shape.reverse) _ _ [] 0 hp,
        allIndices_getD shape.reverse j.reverse hvr, List.reverse_reverse]
    rw [List.map_congr_left hpoint]
    exact allIndices_recover shape data 0 hlen

/-- Witness for C7 at shape `[2, 3]`. -/
theorem transpose_default_reversal_involution_witness :
    ((List.range 2).reverse).getD 0 0 = 1 ∧
    (NumpyTranspose none OpReqType.kWriteTo [2, 3] [1, 2, 3, 4, 5, 6]).bind
      (fun r => NumpyTranspose none OpReqType.kWriteTo r.1 r.2) =
      some ([2, 3], [1, 2, 3, 4, 5, 6]) := by
  have h := transpose_default_reversal_involution [2, 3] [1, 2, 3, 4, 5, 6]
    (by decide) (by decide)
  exact ⟨h.1 0 (by decide), h.2.2⟩

/-- The reshape step shared by vstack forward and backward: a buffer of rank 0
or 1 is reshaped, without copying, to a single row `(1, total element count)`
(`Shape2(1, Size())`); a buffer of rank at least 2 is used as-is. -/
def vstackRowView (b : List Nat × List Int) : List Nat × List Int :=
  if b.1.length = 0 ∨ b.1.length = 1 then ([1, b.1.prod], b.2) else b

/-- Modelled from the spec: the forward operation of the external
concatenation primitive (`ConcatOp<xpu, DType>` from `../nn/concat-inl.h`,
outside this core) configured with `dim = 0`: concatenate the inputs along
axis 0 into the single output.  All inputs must share the trailing
dimensions; the output shape prepends the sum of the leading dimensions. -/
def ConcatForwardAxis0 (data : List (List Nat × List Int)) : Option (List Nat × List Int) :=
  match data with
  | [] => none
  | (s, d) :: rest =>
    if rest.all (fun b => decide (b.1.tail = s.tail) && decide (b.1 ≠ [])) && decide (s ≠ [])
    then some ((s.headD 0 + (rest.map (fun b => b.1.headD 0)).sum) :: s.tail,
      d ++ (rest.map Prod.snd).flatten)
    else none

/-- The vstack forward entry point `NumpyVstackForward`: the input count must
equal `num_args` and the output and write-policy counts must equal 1 (fatal
checks), every input is coerced to a row view, and the row views are handed to
the external concatenation primitive along axis 0. -/
def NumpyVstackForward (num_args : Nat) (inputs : List (List Nat × List Int))
    (numOutputs numReq : Nat) : Option (List Nat × List Int) :=
  if inputs.length ≠ num_args then none
  else if numOutputs ≠ 1 then none
  else if numReq ≠ 1 then none
  else ConcatForwardAxis0 (inputs.map vstackRowView)

/-- Per-buffer application of a write policy: keep the old buffer, overwrite
it, or accumulate element-wise. -/
def applyReq (rq : OpReqType) (old new : List Int) : List Int :=
  match rq with
  | .kNullOp => old
  | .kWriteTo => new
  | .kWriteInplace => new
  | .kAddTo => List.zipWith (fun a b => a + b) old new

/-- Modelled from the spec: the backward operation of the external
concatenation primitive with `dim = 0`: split the incoming gradient buffer
along axis 0 into the given slots, in order, each slot taking as many
elements as its shape holds, honoring each slot's write policy. -/
def ConcatBackwardAxis0 : List Int → List OpReqType → List (List Nat × List Int) →
    List (List Nat × List Int)
  | _, _, [] => []
  | g, rq :: rqs, (s, old) :: rest =>
    (s, applyReq rq old (g.take s.prod)) :: ConcatBackwardAxis0 (g.drop s.prod) rqs rest
  | g, [], (s, old) :: rest => (s, old) :: ConcatBackwardAxis0 g [] rest

/-- The vstack backward entry point `NumpyVstackBackward`: exactly one
incoming gradient, and `num_args` gradient outputs and write policies (fatal
checks); each gradient-output slot is coerced to a row view and the
concatenation primitive's backward operation distributes the incoming
gradient into them. -/
def NumpyVstackBackward (num_args : Nat) (grads : List (List Nat × List Int))
    (req : List OpReqType) (outputs : List (List Nat × List Int)) :
    Option (List (List Nat × List Int)) :=
  if grads.length ≠ 1 then none
  else if outputs.length ≠ num_args then none
  else if req.length ≠ num_args then none
  else some (ConcatBackwardAxis0 (grads.headD ([], [])).2 req (outputs.map vstackRowView))

/-- Claim C8: vstack forward reshapes every rank-0/1 input, without copying,
to a single row `(1, size)`, passes rank-2-or-more inputs unchanged, and
delegates the concatenation of the row views along axis 0 to the external
concatenation primitive; an input count differing from `num_args`, or an
output or write-policy count other than 1, is a fatal error.  The listed
example stacks shapes `(3)`, `(1,3)`, `(2,3)` into `(4,3)` in order. -/
theorem vstack_forward_decomposition (num_args : Nat)
    (inputs : List (List Nat × List Int)) (numOutputs numReq : Nat) :
    (inputs.length ≠ num_args ∨ numOutputs ≠ 1 ∨ numReq ≠ 1 →
      NumpyVstackForward num_args inputs numOutputs numReq = none) ∧
    (inputs.length = num_args → numOutputs = 1 → numReq = 1 →
      NumpyVstackForward num_args inputs numOutputs numReq =
        ConcatForwardAxis0 (inputs.map vstackRowView)) ∧
    (∀ b : List Nat × List Int, b.1.length = 0 ∨ b.1.length = 1 →
      vstackRowView b = ([1, b.1.prod], b.2)) ∧
    (∀ b : List Nat × List Int, 2 ≤ b.1.length → vstackRowView b = b) ∧
    NumpyVstackForward 3
      [([3], [1, 2, 3]), ([1, 3], [4, 5, 6]), ([2, 3], [7, 8, 9, 10, 11, 12])] 1 1 =
      some ([4, 3], [1, 2, 3, 4, 5, 6, 7, 8, 9, 10, 11, 12]) := by
  refine ⟨?_, ?_, ?_, ?_, by decide⟩
  · intro h
    rcases h with h | h | h <;> simp [NumpyVstackForward, h]
  · intro h1 h2 h3
    rw [NumpyVstackForward, if_neg (not_not.mpr h1), if_neg (not_not.mpr h2),
      if_neg (not_not.mpr h3)]
  · intro b hb
    rw [vstackRowView, if_pos hb]
  · intro b hb
    rw [vstackRowView, if_neg (by omega)]

/-- Witness for C8: a mismatched input count is rejected, and a rank-1 input
is reshaped to one row. -/
theorem vstack_forward_decomposition_witness :
    NumpyVstackForward 2 [([3], [1, 2, 3])] 1 1 = none ∧
    vstackRowView ([3], [1, 2, 3]) = ([1, 3], [1, 2, 3]) := by
  have h := vstack_forward_decomposition 2 [([3], [1, 2, 3])] 1 1
  exact ⟨h.1 (Or.inl (by decide)), h.2.2.1 ([3], [1, 2, 3]) (Or.inr (by decide))⟩

/-- Claim C9: vstack backward mirrors forward — with exactly one incoming
gradient and `num_args` gradient outputs and write policies, each
gradient-output slot of rank 0 or 1 is reshaped, without copying, to the row
view `(1, size)`, slots of rank at least 2 are used as-is, and the
concatenation primitive's backward operation splits the incoming gradient
along axis 0 into these views in forward order, honoring each slot's write
policy; any other gradient/output/policy count is a fatal error.  The
examples split a `(4,3)` gradient back into slots of shapes `(1,3)`, `(1,3)`,
`(2,3)` in order, and accumulate under `kAddTo`. -/
theorem vstack_backward_mirrors_forward (num_args : Nat)
    (grads : List (List Nat × List Int)) (req : List OpReqType)
    (outputs : List (List Nat × List Int)) :
    (grads.length ≠ 1 ∨ outputs.length ≠ num_args ∨ req.length ≠ num_args →
      NumpyVstackBackward num_args grads req outputs = none) ∧
    (grads.length = 1 → outputs.length = num_args → req.length = num_args →
      NumpyVstackBackward num_args grads req outputs =
        some (ConcatBackwardAxis0 (grads.headD ([], [])).2 req
          (outputs.map vstackRowView))) ∧
    (∀ b : List Nat × List Int, b.1.length = 0 ∨ b.1.length = 1 →
      vstackRowView b = ([1, b.1.prod], b.2)) ∧
    ConcatBackwardAxis0 [1, 2, 3, 4, 5, 6, 7, 8, 9, 10, 11, 12]
      [.kWriteTo, .kWriteTo, .kWriteTo]
      [([1, 3], [0, 0, 0]), ([1, 3], [0, 0, 0]), ([2, 3], [0, 0, 0, 0, 0, 0])] =
      [([1, 3], [1, 2, 3]), ([1, 3], [4, 5, 6]), ([2, 3], [7, 8, 9, 10, 11, 12])] ∧
    ConcatBackwardAxis0 [1, 2, 3] [.kAddTo] [([1, 3], [10, 10, 10])] =
      [([1, 3], [11, 12, 13])] := by
  refine ⟨?_, ?_, ?_, by decide, by decide⟩
  · intro h
    rcases h with h | h | h <;> simp [NumpyVstackBackward, h]
  · intro h1 h2 h3
    rw [NumpyVstackBackward, if_neg (not_not.mpr h1), if_neg (not_not.mpr h2),
      if_neg (not_not.mpr h3)]
  · intro b hb
    rw [vstackRowView, if_pos hb]

/-- Witness for C9: a gradient count of 2 is rejected, and the success branch
delegates to the modelled concat backward on the row views. -/
theorem vstack_backward_mirrors_forward_witness :
    NumpyVstackBackward 1 [([2, 3], [1, 2, 3, 4, 5, 6]), ([2, 3], [0, 0, 0, 0, 0, 0])]
      [.kWriteTo] [([6], [0, 0, 0, 0, 0, 0])] = none ∧
    NumpyVstackBackward 1 [([2, 3], [1, 2, 3, 4, 5, 6])] [.kWriteTo]
      [([6], [0, 0, 0, 0, 0, 0])] =
      some (ConcatBackwardAxis0 [1, 2, 3, 4, 5, 6] [.kWriteTo]
        [vstackRowView ([6], [0, 0, 0, 0, 0, 0])]) := by
  have h1 := vstack_backward_mirrors_forward 1
    [([2, 3], [1, 2, 3, 4, 5, 6]), ([2, 3], [0, 0, 0, 0, 0, 0])] [.kWriteTo]
    [([6], [0, 0, 0, 0, 0, 0])]
  have h2 := vstack_backward_mirrors_forward 1 [([2, 3], [1, 2, 3, 4, 5, 6])] [.kWriteTo]
    [([6], [0, 0, 0, 0, 0, 0])]
  exact ⟨h1.1 (Or.inl (by decide)), h2.2.1 (by decide) (by decide) (by decide)⟩
